import Mathlib

/-!
Verification of the amigos Gopher server (src/amigos.c).

The file shallowly embeds the pure computational core of the server:
path sanitization (`path_sanitize`), path joining (`path_concat`),
gophermap-line parsing (`gopher_item_parse`), wire serialization of menu
entries (`client_send_item`), auto directory listings (`client_send_dir`
item construction), and the gophermap renderer's per-line dispatch
(`client_send_gophermap`).  Strings are modelled as `List Char` (C strings
carry no interior NUL here), machine integers as `Nat`/`Int` with explicit
`% 65536` where the 16-bit port wraps, and fallible operations as
`Option`.  Theorems at the end settle the specification's claims about
these definitions.
-/

namespace Amigos

/-- `PATH_SEPARATOR` on POSIX builds (the Windows branch is compiled out). -/
def PATH_SEPARATOR : Char := '/'

/-- `DEFAULT_HOSTNAME` compile-time default. -/
def DEFAULT_HOSTNAME : List Char := "localhost".data

/-- `DEFAULT_PORT` compile-time default (= `LISTEN_PORT` = 70). -/
def DEFAULT_PORT : Nat := 70

/-- `INVALID_HOST` sentinel used by info/error items. -/
def INVALID_HOST : List Char := "null.host".data

/-- `INVALID_PORT` sentinel used by info/error items. -/
def INVALID_PORT : Nat := 0

/-- `path_sanitize` (amigos.c lines 1041-1067), POSIX build: walk the string
left to right; at the first position whose character and successor are both
`'.'`, write a terminator there (truncating the string) and stop.  The
Windows-only conversion of `'/'` to `'\\'` is compiled out.  The C function
additionally returns a was-modified flag that no caller inspects. -/
def path_sanitize : List Char → List Char
  | [] => []
  | [c] => [c]
  | c :: d :: rest =>
    if c = '.' ∧ d = '.' then []
    else c :: path_sanitize (d :: rest)

/-- The string contains no two consecutive `'.'` characters (no `".."`
substring). -/
def noDoubleDot : List Char → Prop
  | [] => True
  | [_] => True
  | c :: d :: rest => ¬(c = '.' ∧ d = '.') ∧ noDoubleDot (d :: rest)

/-- One step of `path_concat` (amigos.c lines 1080-1128): append fragment
`p` to the accumulated buffer `acc`.  When the buffer already holds a
nonempty string (`plen > 1` in the C) whose final character (`*(cur - 1)`)
is not the separator, a single separator is written first.  The fragment's
own first character is never examined.  The C function can signal only
allocation failure (returning 0); allocation always succeeds in the
model. -/
def pcStep (acc p : List Char) : List Char :=
  if acc ≠ [] ∧ acc.getLast? ≠ some PATH_SEPARATOR then acc ++ PATH_SEPARATOR :: p
  else acc ++ p

/-- `path_concat` folds `pcStep` over its fragment list, starting from the
empty buffer. -/
def path_concat (ps : List (List Char)) : List Char := ps.foldl pcStep []

/-- The join operation as the specification describes it for claim C5: one
separator is inserted between adjacent fragments exactly when the left one
does not already end with a separator and the right one does not already
begin with one.  (Refinement target, modelled from the spec's words; it is
compared against `path_concat` below.) -/
def join_spec_claimed : List (List Char) → List Char
  | [] => []
  | [p] => p
  | p :: q :: rest =>
      p ++ (if p ≠ [] ∧ p.getLast? ≠ some PATH_SEPARATOR ∧ q.head? ≠ some PATH_SEPARATOR
            then [PATH_SEPARATOR] else []) ++ join_spec_claimed (q :: rest)

/-- The join operation the code actually implements, stated fragment-wise:
one separator between adjacent fragments exactly when the left fragment is
nonempty and does not end with the separator, regardless of how the right
fragment begins. -/
def join_amended : List (List Char) → List Char
  | [] => []
  | [p] => p
  | p :: q :: rest =>
      p ++ (if p ≠ [] ∧ p.getLast? ≠ some PATH_SEPARATOR then [PATH_SEPARATOR] else []) ++
        join_amended (q :: rest)

/-- Split a string at every occurrence of `sep`.  The component list is
always nonempty; empty components record leading, trailing or doubled
separators. -/
def splitOnChar (sep : Char) : List Char → List (List Char)
  | [] => [[]]
  | c :: rest =>
    if c = sep then [] :: splitOnChar sep rest
    else
      match splitOnChar sep rest with
      | [] => [[c]]
      | h :: t => (c :: h) :: t

/-- One step of lexical path canonicalization: empty and `"."` components
vanish, `".."` pops the last retained component, everything else is
kept. -/
def canonStep (acc : List (List Char)) (comp : List Char) : List (List Char) :=
  if comp = [] ∨ comp = ['.'] then acc
  else if comp = ['.', '.'] then acc.dropLast
  else acc ++ [comp]

/-- Lexical canonicalization of a path: fold `canonStep` over its
separator-split components. -/
def canonical (p : List Char) : List (List Char) :=
  (splitOnChar PATH_SEPARATOR p).foldl canonStep []

/-- `p` lies at or below `root` once both are canonicalized: the canonical
component list of `root` is an initial segment of that of `p`. -/
def descendant_of (p root : List Char) : Prop :=
  ∃ t, canonical root ++ t = canonical p

/-- The request handler's selector-to-path resolution
(`server_process_request`, amigos.c lines 420-443): the received selector
is truncated at the first TAB, CR or LF, sanitized with `path_sanitize`,
and then the target is the document root itself when the sanitized
selector is empty, otherwise `path_concat` of the root and the
selector.  (Filesystem classification of the target happens afterwards
and does not change the path.) -/
def request_target (droot recvd : List Char) : List Char :=
  let sel := recvd.takeWhile (fun c => !(c == '\t' || c == '\r' || c == '\n'))
  let s := path_sanitize sel
  if s = [] then droot else path_concat [droot, s]

/-- Fuel-driven helper for `decChars`; the fuel only forces structural
recursion and is irrelevant as long as it exceeds the argument. -/
def decCharsAux : Nat → Nat → List Char
  | 0, _ => []
  | fuel + 1, n =>
    if n < 10 then [Nat.digitChar n]
    else decCharsAux fuel (n / 10) ++ [Nat.digitChar (n % 10)]

/-- Decimal digit expansion of a natural number, most significant digit
first: what `snprintf`'s `%u` prints for the promoted 16-bit port. -/
def decChars (n : Nat) : List Char := decCharsAux (n + 1) n

/-- Value accumulated left to right over decimal digit characters, as the
digit-conversion loop inside `atoi` does. -/
def digitsVal (acc : Nat) : List Char → Nat
  | [] => acc
  | c :: rest => digitsVal (acc * 10 + (c.toNat - 48)) rest

/-- C `isdigit` on the byte values the parser can see. -/
def isdigitC (c : Char) : Bool := 48 ≤ c.toNat && c.toNat ≤ 57

/-- C `isspace`: space, TAB, LF, VT, FF, CR (byte values 32, 9-13). -/
def isspaceC (c : Char) : Bool :=
  c.toNat = 32 || c.toNat = 9 || c.toNat = 10 || c.toNat = 11 || c.toNat = 12 || c.toNat = 13

/-- C `atoi` on its defined domain: skip leading whitespace, read an
optional sign, then the value of the longest leading digit run (zero when
there is none).  `int`-range overflow — undefined behavior in C — is not
modelled: the value is exact. -/
def atoiModel (s : List Char) : Int :=
  if (s.dropWhile (fun c => isspaceC c)).head? = some '-' then
    -(digitsVal 0 ((s.dropWhile (fun c => isspaceC c)).tail.takeWhile
        (fun c => isdigitC c)) : Int)
  else if (s.dropWhile (fun c => isspaceC c)).head? = some '+' then
    (digitsVal 0 ((s.dropWhile (fun c => isspaceC c)).tail.takeWhile
        (fun c => isdigitC c)) : Int)
  else
    (digitsVal 0 ((s.dropWhile (fun c => isspaceC c)).takeWhile
        (fun c => isdigitC c)) : Int)

/-- The `(uint16_t)` cast applied to `atoi`'s result: reduction modulo
2^16 into `[0, 65536)`. -/
def toUint16 (v : Int) : Nat := (v % 65536).toNat

/-- One Gopher menu entry (`gopher_item_t`).  C `NULL` string fields are
`none`; `port` holds the value of the `uint16_t` field. -/
structure gopher_item where
  type : Char
  port : Nat
  name : Option (List Char)
  selector : Option (List Char)
  hostname : Option (List Char)
deriving DecidableEq

/-- Hostname-and-port stage of `gopher_item_parse`: `r4` is the text after
the second TAB.  The hostname runs to the next TAB or the end of the line
(the C loop tests both); when the line ends there the port keeps its
`DEFAULT_PORT` preset, otherwise the port text is everything that remains
and goes through `atoi` and the `uint16_t` cast. -/
def gopher_item_parse_host (t : Char) (nm sel r4 : List Char) : gopher_item :=
  match r4.dropWhile (fun c => !(c == '\t')) with
  | [] => ⟨t, DEFAULT_PORT, some nm, some sel, some (r4.takeWhile (fun c => !(c == '\t')))⟩
  | _ :: r6 => ⟨t, toUint16 (atoiModel r6), some nm, some sel,
      some (r4.takeWhile (fun c => !(c == '\t')))⟩

/-- Selector stage of `gopher_item_parse`: `r2` is the text after the
first TAB.  The selector runs to the next TAB or the end of the line; when
the line ends there the hostname and port keep their presets
(`DEFAULT_HOSTNAME`, `DEFAULT_PORT`). -/
def gopher_item_parse_sel (t : Char) (nm r2 : List Char) : gopher_item :=
  match r2.dropWhile (fun c => !(c == '\t')) with
  | [] => ⟨t, DEFAULT_PORT, some nm, some (r2.takeWhile (fun c => !(c == '\t'))),
      some DEFAULT_HOSTNAME⟩
  | _ :: r4 => gopher_item_parse_host t nm (r2.takeWhile (fun c => !(c == '\t'))) r4

/-- `gopher_item_parse` (amigos.c lines 875-938) applied to a
CR/LF-stripped line.  The type byte is the first character; the name runs
to the first TAB; selector, hostname and the port text follow at
subsequent TABs (the `_sel` and `_host` stages above), with hostname
defaulting to `DEFAULT_HOSTNAME` and port to `DEFAULT_PORT` when the line
ends early.  The C name-scanning loop (lines 896-899) tests only for
TAB — unlike the selector and hostname loops it never tests for the string
terminator — so on a line with no TAB after the type byte it reads past
the end of the buffer: undefined behavior, modelled as `none` (otherwise
`none` corresponds to the C function's NULL return, reached only on
allocation failure, which is not modelled; the C function is also only
ever invoked on lines holding at least one TAB). -/
def gopher_item_parse (line : List Char) : Option gopher_item :=
  match line with
  | [] => none
  | t :: rest =>
    match rest.dropWhile (fun c => !(c == '\t')) with
    | [] => none
    | _ :: r2 => some (gopher_item_parse_sel t (rest.takeWhile (fun c => !(c == '\t'))) r2)

/-- The selector string the item sender places on the wire
(`client_send_item`, amigos.c lines 721-737): when the client's request
selector is nonempty, the item's selector is non-NULL and the item's
selector does not begin with `'/'`, the item selector is joined onto the
request selector with `path_concat`; in every other case the item's own
selector is used, NULL becoming the empty string. -/
def client_item_selector (csel : List Char) (it : gopher_item) : List Char :=
  match it.selector with
  | none => []
  | some s => if csel ≠ [] ∧ s.head? ≠ some '/' then path_concat [csel, s] else s

/-- The full entry line `snprintf` would format (amigos.c lines 732-737):
type byte, name (NULL becoming empty), TAB, wire selector, TAB, hostname
(NULL becoming `DEFAULT_HOSTNAME`), TAB, decimal port, CRLF. -/
def item_wire_line (csel : List Char) (it : gopher_item) : List Char :=
  it.type :: ((it.name.getD []) ++ '\t' :: client_item_selector csel it ++
    '\t' :: (it.hostname.getD DEFAULT_HOSTNAME) ++ '\t' :: decChars it.port ++ ['\r', '\n'])

/-- `client_send_item`: the line is sent only when the formatted length
(`snprintf`'s untruncated return value) is at most 255; a longer line is
dropped and the call fails (`len >= 256` check, amigos.c line 745) — it is
never truncated. -/
def client_send_item (csel : List Char) (it : gopher_item) : Option (List Char) :=
  if 256 ≤ (item_wire_line csel it).length then none else some (item_wire_line csel it)

/-- No TAB, CR or LF anywhere in the string: the field-cleanliness
invariant of the data model. -/
def cleanField (l : List Char) : Prop := ∀ c ∈ l, c ≠ '\t' ∧ c ≠ '\r' ∧ c ≠ '\n'

instance cleanField_decidable (l : List Char) : Decidable (cleanField l) :=
  List.decidableBAll _ l

/-- The shape of one wire menu record: one type byte, then name, selector
and host fields free of TAB/CR/LF and separated by single TABs, then a
nonempty decimal-digit port field, then CRLF — the record grammar of the
specification's framing invariant. -/
def wire_record_shape (r : List Char) : Prop :=
  ∃ t nm sel hst prt,
    r = t :: (nm ++ '\t' :: sel ++ '\t' :: hst ++ '\t' :: prt ++ ['\r', '\n']) ∧
    cleanField nm ∧ cleanField sel ∧ cleanField hst ∧ prt ≠ [] ∧
    ∀ c ∈ prt, isdigitC c = true

/-- One directory entry as `readdir` reports it: the `d_name` string and
whether `d_type` is `DT_DIR`. -/
structure dirent_entry where
  d_name : List Char
  is_dir : Bool
deriving DecidableEq

/-- The skip test of the auto-listing loop (`client_send_dir`, amigos.c
lines 588-597): names beginning with `'.'` are hidden, and — behind a
first-letter fast path on `'g'` — names equal to `"gophermap"`. -/
def dirent_hidden (n : List Char) : Bool :=
  match n.head? with
  | some c =>
    if c = '.' then true
    else if c = 'g' then decide (n = "gophermap".data)
    else false
  | none => false

/-- The item the auto listing builds for one entry (amigos.c lines
599-604): type `'1'`/`'0'`, display name = the entry name with `'/'` or a
space appended, truncated by `snprintf` to the 70 characters that fit
`name[71]`; selector = the entry name; default host and port. -/
def dir_item (e : dirent_entry) : gopher_item :=
  ⟨if e.is_dir then '1' else '0', DEFAULT_PORT,
    some ((e.d_name ++ [if e.is_dir then '/' else ' ']).take 70),
    some e.d_name, some DEFAULT_HOSTNAME⟩

/-- The items the auto directory listing constructs: hidden entries are
skipped, every other entry becomes its `dir_item`, in enumeration
order. -/
def client_send_dir_items (entries : List dirent_entry) : List gopher_item :=
  (entries.filter (fun e => !dirent_hidden e.d_name)).map dir_item

/-- The two header info entries `client_send_dir` emits when asked
(amigos.c lines 575-580): `"[<selector>]:"` (through a 256-byte
`snprintf`) and an empty message, both with NULL selector, sentinel host
and port. -/
def dir_header_items (csel : List Char) : List gopher_item :=
  [⟨'i', INVALID_PORT, some (('[' :: (csel ++ [']', ':'])).take 255), none, some INVALID_HOST⟩,
   ⟨'i', INVALID_PORT, some [], none, some INVALID_HOST⟩]

/-- `client_send_dir` at the item level: optional header items followed by
the listed entries' items. -/
def client_send_dir_model (csel : List Char) (entries : List dirent_entry)
    (header : Bool) : List gopher_item :=
  (if header then dir_header_items csel else []) ++ client_send_dir_items entries

/-- The wire lines of a directory listing: every item goes through
`client_send_item` with the client's request selector (`none` = the line
was dropped for exceeding 255 bytes). -/
def client_send_dir_wire (csel : List Char) (entries : List dirent_entry)
    (header : Bool) : List (Option (List Char)) :=
  (client_send_dir_model csel entries header).map (client_send_item csel)

/-- Strip a gophermap line at the first CR or LF, as the scan loop of
`client_send_gophermap` (amigos.c lines 655-664) terminates the buffer
there; the same loop counts the TABs of the stripped text. -/
def stripCRLF (l : List Char) : List Char :=
  l.takeWhile (fun c => !(c == '\r' || c == '\n'))

/-- One observable emission of the gophermap renderer. -/
inductive gm_event
  | item : gopher_item → gm_event
  | info : List Char → gm_event
  | parse_fail : gm_event
  | dir_listing : gm_event
deriving DecidableEq

/-- `client_send_gophermap` (amigos.c lines 633-706) over the file's
lines: each line is stripped of CR/LF and its TABs counted.  With zero
TABs, `"."` stops processing, `"*"` inlines an auto listing of the
gophermap's directory and continues, anything else is an info entry.  With
at least one TAB the line is parsed as an item; a `none` parse (the C NULL
return, plus the modelled name-scan overrun when the line's only TAB is
its first byte) emits an error entry and continues. -/
def gophermap_render : List (List Char) → List gm_event
  | [] => []
  | l :: rest =>
    if (stripCRLF l).count '\t' = 0 then
      if stripCRLF l = ['.'] then []
      else if stripCRLF l = ['*'] then gm_event.dir_listing :: gophermap_render rest
      else gm_event.info (stripCRLF l) :: gophermap_render rest
    else
      match gopher_item_parse (stripCRLF l) with
      | none => gm_event.parse_fail :: gophermap_render rest
      | some it => gm_event.item it :: gophermap_render rest

theorem noDoubleDot_of_cons {c : Char} {l : List Char}
    (h : noDoubleDot (c :: l)) : noDoubleDot l := by
  cases l with
  | nil => trivial
  | cons d t => exact h.2

theorem noDoubleDot_cons {c : Char} {l : List Char}
    (h1 : noDoubleDot l)
    (h2 : ∀ d, l.head? = some d → ¬(c = '.' ∧ d = '.')) :
    noDoubleDot (c :: l) := by
  cases l with
  | nil => trivial
  | cons d t => exact ⟨h2 d rfl, h1⟩

theorem path_sanitize_head :
    ∀ d rest, path_sanitize (d :: rest) = [] ∨
      (path_sanitize (d :: rest)).head? = some d := by
  intro d rest
  cases rest with
  | nil => right; rfl
  | cons e t =>
    by_cases h : d = '.' ∧ e = '.'
    · left; simp [path_sanitize, h]
    · right; simp [path_sanitize, h]

theorem noDoubleDot_path_sanitize : ∀ s, noDoubleDot (path_sanitize s)
  | [] => trivial
  | [_] => trivial
  | c :: d :: rest => by
    by_cases h : c = '.' ∧ d = '.'
    · simp [path_sanitize, h, noDoubleDot]
    · rw [path_sanitize, if_neg h]
      refine noDoubleDot_cons (noDoubleDot_path_sanitize (d :: rest)) ?_
      intro e he
      rcases path_sanitize_head d rest with h0 | h0
      · rw [h0] at he; simp at he
      · rw [h0] at he
        injection he with he
        subst he
        exact h

theorem path_sanitize_of_noDoubleDot : ∀ s, noDoubleDot s → path_sanitize s = s
  | [], _ => rfl
  | [_], _ => rfl
  | c :: d :: rest, h => by
    rw [path_sanitize, if_neg h.1]
    rw [path_sanitize_of_noDoubleDot (d :: rest) h.2]

/-- Claim C9: `path_sanitize` is idempotent: sanitizing an already
sanitized selector leaves it unchanged. -/
theorem path_sanitize_idempotent (s : List Char) :
    path_sanitize (path_sanitize s) = path_sanitize s :=
  path_sanitize_of_noDoubleDot _ (noDoubleDot_path_sanitize s)

theorem pcStep_eq (acc p : List Char) :
    pcStep acc p =
      acc ++ (if acc ≠ [] ∧ acc.getLast? ≠ some PATH_SEPARATOR
              then [PATH_SEPARATOR] else []) ++ p := by
  rw [pcStep]
  split <;> simp

theorem pcStep_ne_nil {acc : List Char} (p : List Char) (h : acc ≠ []) :
    pcStep acc p ≠ [] := by
  rw [pcStep_eq]
  simp [h]

theorem foldl_pcStep_join :
    ∀ (rest : List (List Char)) (p : List Char), p ≠ [] → (∀ q ∈ rest, q ≠ []) →
      List.foldl pcStep p rest = join_amended (p :: rest)
  | [], p, _, _ => rfl
  | q :: rest', p, hp, hq => by
    have hqne : q ≠ [] := hq q (by simp)
    have hrest : ∀ r ∈ rest', r ≠ [] := fun r hr => hq r (by simp [hr])
    have ih := foldl_pcStep_join rest' (pcStep p q) (pcStep_ne_nil q hp) hrest
    rw [List.foldl_cons, ih]
    cases rest' with
    | nil =>
      show join_amended [pcStep p q] = join_amended [p, q]
      have e1 : join_amended [pcStep p q] = pcStep p q := rfl
      have e2 : join_amended [p, q] =
          p ++ (if p ≠ [] ∧ p.getLast? ≠ some PATH_SEPARATOR then [PATH_SEPARATOR] else []) ++
            q := rfl
      rw [e1, e2, pcStep_eq]
    | cons r t =>
      have hpc : pcStep p q ≠ [] := pcStep_ne_nil q hp
      have hlast : (pcStep p q).getLast? = q.getLast? := by
        rw [pcStep_eq]
        exact List.getLast?_append_of_ne_nil _ hqne
      show join_amended (pcStep p q :: r :: t) = join_amended (p :: q :: r :: t)
      have e1 : join_amended (pcStep p q :: r :: t) =
          pcStep p q ++
            (if pcStep p q ≠ [] ∧ (pcStep p q).getLast? ≠ some PATH_SEPARATOR
             then [PATH_SEPARATOR] else []) ++ join_amended (r :: t) := rfl
      have e2 : join_amended (p :: q :: r :: t) =
          p ++ (if p ≠ [] ∧ p.getLast? ≠ some PATH_SEPARATOR then [PATH_SEPARATOR] else []) ++
            (q ++ (if q ≠ [] ∧ q.getLast? ≠ some PATH_SEPARATOR then [PATH_SEPARATOR] else []) ++
              join_amended (r :: t)) := rfl
      have hif : (if pcStep p q ≠ [] ∧ (pcStep p q).getLast? ≠ some PATH_SEPARATOR
                  then [PATH_SEPARATOR] else ([] : List Char)) =
          (if q ≠ [] ∧ q.getLast? ≠ some PATH_SEPARATOR then [PATH_SEPARATOR] else []) := by
        by_cases hql : q.getLast? = some PATH_SEPARATOR
        · rw [if_neg (fun h => h.2 (hlast.trans hql)), if_neg (fun h => h.2 hql)]
        · rw [if_pos ⟨hpc, fun heq => hql (hlast.symm.trans heq)⟩, if_pos ⟨hqne, hql⟩]
      rw [e1, e2, hif, pcStep_eq]
      simp [List.append_assoc]

/-- Claim C5 (amended): for fragment lists whose fragments are all
nonempty, `path_concat` joins them with exactly one separator inserted
between each adjacent pair whose left fragment does not already end with
the separator; whether the right fragment begins with one is never
consulted, and the only failure mode of the C function is allocation
failure (not modelled). -/
theorem path_concat_amended_join (ps : List (List Char)) (h : ∀ p ∈ ps, p ≠ []) :
    path_concat ps = join_amended ps := by
  cases ps with
  | nil => rfl
  | cons p rest =>
    have hp : p ≠ [] := h p (by simp)
    have hrest : ∀ q ∈ rest, q ≠ [] := fun q hq => h q (by simp [hq])
    have h0 : pcStep [] p = p := by rw [pcStep_eq]; simp
    rw [path_concat, List.foldl_cons, h0]
    exact foldl_pcStep_join rest p hp hrest

/-- Witness for claim C5's amended theorem at a concrete fragment list. -/
theorem path_concat_amended_join_witness :
    path_concat ["usr".data, "share".data, "doc/".data, "x".data] =
      join_amended ["usr".data, "share".data, "doc/".data, "x".data] :=
  path_concat_amended_join _ (by decide)

/-- Counterexample for claim C5 as stated: when the right-hand fragment
already begins with a separator the code still inserts one, so
`path_concat ["a", "/b"]` yields `"a//b"` while the claimed join yields
`"a/b"`. -/
theorem path_concat_leading_sep_cex :
    path_concat ["a".data, "/b".data] = "a//b".data ∧
    join_spec_claimed ["a".data, "/b".data] = "a/b".data ∧
    path_concat ["a".data, "/b".data] ≠ join_spec_claimed ["a".data, "/b".data] := by
  refine ⟨by decide, by decide, by decide⟩

theorem splitOnChar_ne_nil (sep : Char) (s : List Char) : splitOnChar sep s ≠ [] := by
  cases s with
  | nil => simp [splitOnChar]
  | cons c rest =>
    rw [splitOnChar]
    by_cases h : c = sep
    · simp [h]
    · rw [if_neg h]
      rcases hs : splitOnChar sep rest with _ | ⟨h1, t1⟩ <;> simp

theorem splitOnChar_cons_sep {sep c : Char} (rest : List Char) (h : c = sep) :
    splitOnChar sep (c :: rest) = [] :: splitOnChar sep rest := by
  rw [splitOnChar, if_pos h]

theorem splitOnChar_cons_ne {sep c : Char} (rest : List Char) (h : ¬c = sep)
    {h1 : List Char} {t1 : List (List Char)}
    (hsplit : splitOnChar sep rest = h1 :: t1) :
    splitOnChar sep (c :: rest) = (c :: h1) :: t1 := by
  rw [splitOnChar, if_neg h, hsplit]

theorem splitOnChar_append (sep : Char) :
    ∀ (a b : List Char),
      splitOnChar sep (a ++ sep :: b) = splitOnChar sep a ++ splitOnChar sep b
  | [], b => by
    rw [List.nil_append, splitOnChar_cons_sep b rfl]
    rfl
  | c :: a', b => by
    by_cases h : c = sep
    · rw [List.cons_append, splitOnChar_cons_sep _ h, splitOnChar_append sep a' b,
        splitOnChar_cons_sep a' h, List.cons_append]
    · obtain ⟨h1, t1, hsplit⟩ : ∃ h1 t1, splitOnChar sep a' = h1 :: t1 := by
        rcases hs : splitOnChar sep a' with _ | ⟨x, y⟩
        · exact absurd hs (splitOnChar_ne_nil sep a')
        · exact ⟨x, y, rfl⟩
      have hsplit2 : splitOnChar sep (a' ++ sep :: b) = h1 :: (t1 ++ splitOnChar sep b) := by
        rw [splitOnChar_append sep a' b, hsplit, List.cons_append]
      rw [List.cons_append, splitOnChar_cons_ne _ h hsplit2, splitOnChar_cons_ne _ h hsplit,
        List.cons_append]

theorem splitOnChar_head (sep : Char) (s : List Char) (h1 : List Char)
    (t1 : List (List Char)) (hs : splitOnChar sep s = h1 :: t1) :
    h1 = [] ∨ h1.head? = s.head? := by
  cases s with
  | nil =>
    rw [splitOnChar] at hs
    injection hs with hs1 _
    left; exact hs1.symm
  | cons c rest =>
    rw [splitOnChar] at hs
    by_cases h : c = sep
    · rw [if_pos h] at hs
      injection hs with hs1 _
      left; exact hs1.symm
    · rw [if_neg h] at hs
      rcases hr : splitOnChar sep rest with _ | ⟨x, y⟩
      · exact absurd hr (splitOnChar_ne_nil sep rest)
      · rw [hr] at hs
        injection hs with hs1 _
        right; rw [← hs1]; rfl

theorem noDoubleDot_splitOnChar (sep : Char) :
    ∀ (s : List Char), noDoubleDot s → ∀ comp ∈ splitOnChar sep s, noDoubleDot comp
  | [], _ => by
    intro comp hcomp
    simp [splitOnChar] at hcomp
    subst hcomp; trivial
  | c :: rest, h => by
    intro comp hcomp
    have ihall := noDoubleDot_splitOnChar sep rest (noDoubleDot_of_cons h)
    rw [splitOnChar] at hcomp
    by_cases hc : c = sep
    · rw [if_pos hc] at hcomp
      rcases List.mem_cons.mp hcomp with hceq | hmem
      · subst hceq; trivial
      · exact ihall comp hmem
    · rw [if_neg hc] at hcomp
      obtain ⟨h1, t1, hsplit⟩ : ∃ h1 t1, splitOnChar sep rest = h1 :: t1 := by
        rcases hs : splitOnChar sep rest with _ | ⟨x, y⟩
        · exact absurd hs (splitOnChar_ne_nil sep rest)
        · exact ⟨x, y, rfl⟩
      rw [hsplit] at hcomp
      rcases List.mem_cons.mp hcomp with hceq | hmem
      · subst hceq
        have h1dd : noDoubleDot h1 := ihall h1 (by rw [hsplit]; simp)
        apply noDoubleDot_cons h1dd
        intro d hd
        rcases splitOnChar_head sep rest h1 t1 hsplit with h0 | h0
        · rw [h0] at hd; simp at hd
        · rw [h0] at hd
          cases rest with
          | nil => simp at hd
          | cons e rest' =>
            simp at hd
            subst hd
            exact h.1
      · exact ihall comp (by rw [hsplit]; simp [hmem])

theorem noDoubleDot_ne_dotdot {comp : List Char} (h : noDoubleDot comp) :
    comp ≠ ['.', '.'] := by
  intro hc
  subst hc
  exact h.1 ⟨rfl, rfl⟩

theorem canonStep_foldl_extends :
    ∀ (parts : List (List Char)) (acc : List (List Char)),
      (∀ c ∈ parts, c ≠ ['.', '.']) → ∃ t, acc ++ t = List.foldl canonStep acc parts
  | [], acc, _ => ⟨[], by simp⟩
  | c :: parts', acc, h => by
    have hc : c ≠ ['.', '.'] := h c (by simp)
    have hrest : ∀ x ∈ parts', x ≠ ['.', '.'] := fun x hx => h x (by simp [hx])
    rw [List.foldl_cons]
    obtain ⟨t', ht'⟩ := canonStep_foldl_extends parts' (canonStep acc c) hrest
    rw [canonStep] at ht' ⊢
    by_cases h1 : c = [] ∨ c = ['.']
    · rw [if_pos h1] at ht'
      rw [if_pos h1]
      exact ⟨t', ht'⟩
    · rw [if_neg h1, if_neg hc] at ht'
      rw [if_neg h1, if_neg hc]
      exact ⟨[c] ++ t', by rw [← List.append_assoc]; exact ht'⟩

theorem pcStep_nil_left (p : List Char) : pcStep [] p = p := by
  rw [pcStep_eq]; simp

theorem canonical_append_sanitized (droot s : List Char) (hs : noDoubleDot s) :
    descendant_of (pcStep droot s) droot := by
  have hparts : ∀ c ∈ splitOnChar PATH_SEPARATOR s, c ≠ ['.', '.'] :=
    fun c hc => noDoubleDot_ne_dotdot (noDoubleDot_splitOnChar PATH_SEPARATOR s hs c hc)
  by_cases hd : droot = []
  · subst hd
    rw [pcStep_nil_left]
    exact ⟨canonical s, by simp [show canonical ([] : List Char) = [] from rfl]⟩
  · by_cases hlast : droot.getLast? = some PATH_SEPARATOR
    · -- the root already ends with the separator: no separator is inserted
      have hdecomp : droot.dropLast ++ [PATH_SEPARATOR] = droot :=
        List.dropLast_append_getLast? _ hlast
      have htarget : pcStep droot s = droot.dropLast ++ PATH_SEPARATOR :: s := by
        rw [pcStep_eq, if_neg (fun h => h.2 hlast)]
        calc droot ++ [] ++ s = droot ++ s := by simp
          _ = droot.dropLast ++ [PATH_SEPARATOR] ++ s := by rw [hdecomp]
          _ = droot.dropLast ++ PATH_SEPARATOR :: s := by simp
      have hroot : (droot : List Char) = droot.dropLast ++ PATH_SEPARATOR :: [] :=
        hdecomp.symm
      rw [descendant_of, htarget]
      conv in canonical droot => rw [hroot]
      rw [canonical, canonical, splitOnChar_append, splitOnChar_append,
        List.foldl_append, List.foldl_append]
      have hnilcomp : splitOnChar PATH_SEPARATOR ([] : List Char) = [[]] := rfl
      rw [hnilcomp]
      have : List.foldl canonStep
          (List.foldl canonStep [] (splitOnChar PATH_SEPARATOR droot.dropLast)) [[]] =
          List.foldl canonStep [] (splitOnChar PATH_SEPARATOR droot.dropLast) := by
        simp [canonStep]
      rw [this]
      exact canonStep_foldl_extends _ _ hparts
    · -- a separator is inserted between the root and the selector
      have htarget : pcStep droot s = droot ++ PATH_SEPARATOR :: s := by
        rw [pcStep_eq, if_pos ⟨hd, hlast⟩]
        simp
      rw [descendant_of, htarget, canonical, canonical, splitOnChar_append,
        List.foldl_append]
      exact canonStep_foldl_extends _ _ hparts

/-- Claim C1: traversal safety.  For every document root and every raw
client selector, the handler's resolved target path — the root itself for
an empty sanitized selector, otherwise the root joined with the sanitized
selector — canonicalizes to a descendant of the root: sanitization leaves
no `".."` component, so no selector can escape the document root. -/
theorem traversal_safe (droot recvd : List Char) :
    descendant_of (request_target droot recvd) droot := by
  rw [request_target]
  set sel := recvd.takeWhile (fun c => !(c == '\t' || c == '\r' || c == '\n')) with hsel
  by_cases h0 : path_sanitize sel = []
  · simp only [h0, if_pos rfl]
    exact ⟨[], by simp⟩
  · simp only [if_neg h0]
    have hs : noDoubleDot (path_sanitize sel) := noDoubleDot_path_sanitize sel
    have hpc : path_concat [droot, path_sanitize sel] =
        pcStep droot (path_sanitize sel) := by
      rw [path_concat, List.foldl_cons, pcStep_nil_left, List.foldl_cons, List.foldl_nil]
    rw [hpc]
    exact canonical_append_sanitized droot _ hs

theorem decCharsAux_congr :
    ∀ f1 f2 m, m < f1 → m < f2 → decCharsAux f1 m = decCharsAux f2 m
  | 0, _, m, h1, _ => absurd h1 (Nat.not_lt_zero m)
  | _ + 1, 0, m, _, h2 => absurd h2 (Nat.not_lt_zero m)
  | f1 + 1, f2 + 1, m, h1, h2 => by
    rw [decCharsAux, decCharsAux]
    by_cases h : m < 10
    · rw [if_pos h, if_pos h]
    · rw [if_neg h, if_neg h]
      have hdiv : m / 10 < m := Nat.div_lt_self (by omega) (by omega)
      rw [decCharsAux_congr f1 f2 (m / 10) (by omega) (by omega)]

theorem decChars_lt {n : Nat} (h : n < 10) : decChars n = [Nat.digitChar n] := by
  rw [decChars, decCharsAux, if_pos h]

theorem decChars_ge {n : Nat} (h : ¬n < 10) :
    decChars n = decChars (n / 10) ++ [Nat.digitChar (n % 10)] := by
  have hdiv : n / 10 < n := Nat.div_lt_self (by omega) (by omega)
  rw [decChars, decCharsAux, if_neg h, decChars,
    decCharsAux_congr n (n / 10 + 1) (n / 10) (by omega) (by omega)]

theorem takeWhile_all {α : Type} {p : α → Bool} :
    ∀ l : List α, (∀ c ∈ l, p c = true) → l.takeWhile p = l
  | [], _ => rfl
  | c :: rest, h => by
    have hc : p c = true := h c (List.mem_cons_self c rest)
    rw [List.takeWhile_cons, if_pos hc,
      takeWhile_all rest (fun x hx => h x (List.mem_cons_of_mem c hx))]

theorem takeWhile_append_stop {α : Type} {p : α → Bool} :
    ∀ (a : List α) (x : α) (b : List α), (∀ c ∈ a, p c = true) → p x = false →
      (a ++ x :: b).takeWhile p = a
  | [], x, b, _, hx => by
    rw [List.nil_append, List.takeWhile_cons, if_neg (by simp [hx])]
  | c :: a', x, b, h, hx => by
    have hc : p c = true := h c (List.mem_cons_self c a')
    rw [List.cons_append, List.takeWhile_cons, if_pos hc,
      takeWhile_append_stop a' x b (fun y hy => h y (List.mem_cons_of_mem c hy)) hx]

theorem dropWhile_append_stop {α : Type} {p : α → Bool} :
    ∀ (a : List α) (x : α) (b : List α), (∀ c ∈ a, p c = true) → p x = false →
      (a ++ x :: b).dropWhile p = x :: b
  | [], x, b, _, hx => by
    rw [List.nil_append, List.dropWhile_cons, if_neg (by simp [hx])]
  | c :: a', x, b, h, hx => by
    have hc : p c = true := h c (List.mem_cons_self c a')
    rw [List.cons_append, List.dropWhile_cons, if_pos hc,
      dropWhile_append_stop a' x b (fun y hy => h y (List.mem_cons_of_mem c hy)) hx]

theorem gopher_item_parse_cons {t x : Char} {rest r2 : List Char}
    (h : rest.dropWhile (fun c => !(c == '\t')) = x :: r2) :
    gopher_item_parse (t :: rest) =
      some (gopher_item_parse_sel t (rest.takeWhile (fun c => !(c == '\t'))) r2) := by
  rw [gopher_item_parse, h]

theorem digitChar_toNat {m : Nat} (h : m < 10) : (Nat.digitChar m).toNat = 48 + m := by
  interval_cases m <;> rfl

theorem decChars_digits (n : Nat) : ∀ c ∈ decChars n, 48 ≤ c.toNat ∧ c.toNat ≤ 57 := by
  induction n using Nat.strong_induction_on with
  | _ n ih =>
    by_cases h : n < 10
    · rw [decChars_lt h]
      intro c hc
      simp only [List.mem_singleton] at hc
      subst hc
      rw [digitChar_toNat h]
      omega
    · rw [decChars_ge h]
      intro c hc
      rcases List.mem_append.mp hc with hm | hm
      · exact ih (n / 10) (Nat.div_lt_self (by omega) (by omega)) c hm
      · simp only [List.mem_singleton] at hm
        subst hm
        rw [digitChar_toNat (Nat.mod_lt n (by omega))]
        omega

theorem decChars_ne_nil (n : Nat) : decChars n ≠ [] := by
  by_cases h : n < 10
  · rw [decChars_lt h]; simp
  · rw [decChars_ge h]; simp

theorem digitsVal_append :
    ∀ (a b : List Char) (acc : Nat), digitsVal acc (a ++ b) = digitsVal (digitsVal acc a) b
  | [], _, _ => rfl
  | c :: a', b, acc => by
    rw [List.cons_append]
    show digitsVal (acc * 10 + (c.toNat - 48)) (a' ++ b) =
      digitsVal (digitsVal (acc * 10 + (c.toNat - 48)) a') b
    exact digitsVal_append a' b _

theorem digitsVal_decChars (n : Nat) : digitsVal 0 (decChars n) = n := by
  induction n using Nat.strong_induction_on with
  | _ n ih =>
    by_cases h : n < 10
    · rw [decChars_lt h]
      show 0 * 10 + ((Nat.digitChar n).toNat - 48) = n
      rw [digitChar_toNat h]
      omega
    · rw [decChars_ge h, digitsVal_append,
        ih (n / 10) (Nat.div_lt_self (by omega) (by omega))]
      show n / 10 * 10 + ((Nat.digitChar (n % 10)).toNat - 48) = n
      rw [digitChar_toNat (Nat.mod_lt n (by omega))]
      omega

theorem isspaceC_false_of_digit {c : Char} (h : 48 ≤ c.toNat) : isspaceC c = false := by
  simp only [isspaceC, Bool.or_eq_false_iff, decide_eq_false_iff_not]
  omega

theorem atoiModel_decChars (v : Nat) : atoiModel (decChars v) = (v : Int) := by
  obtain ⟨c, rest, hdv⟩ : ∃ c rest, decChars v = c :: rest := by
    rcases h : decChars v with _ | ⟨c, rest⟩
    · exact absurd h (decChars_ne_nil v)
    · exact ⟨c, rest, rfl⟩
  have hdig := decChars_digits v
  have hcd : 48 ≤ c.toNat ∧ c.toNat ≤ 57 :=
    hdig c (by rw [hdv]; exact List.mem_cons_self c rest)
  have hdrop : (decChars v).dropWhile (fun c => isspaceC c) = decChars v := by
    rw [hdv]
    rw [List.dropWhile_cons, if_neg (by simp [isspaceC_false_of_digit hcd.1])]
  have htake : (decChars v).takeWhile (fun c => isdigitC c) = decChars v :=
    takeWhile_all _ (fun x hx => by
      have := hdig x hx
      simp only [isdigitC, Bool.and_eq_true, decide_eq_true_eq]
      omega)
  have hne1 : ¬((decChars v).head? = some '-') := by
    rw [hdv]
    simp only [List.head?_cons, Option.some.injEq]
    intro heq
    rw [heq] at hcd
    exact absurd hcd (by decide)
  have hne2 : ¬((decChars v).head? = some '+') := by
    rw [hdv]
    simp only [List.head?_cons, Option.some.injEq]
    intro heq
    rw [heq] at hcd
    exact absurd hcd (by decide)
  rw [atoiModel, hdrop, if_neg hne1, if_neg hne2, htake, digitsVal_decChars]

theorem toUint16_natCast (v : Nat) : toUint16 (v : Int) = v % 65536 := by
  rw [toUint16]
  omega

theorem gopher_item_parse_sel_more {t x : Char} {nm r2 r4 : List Char}
    (h : r2.dropWhile (fun c => !(c == '\t')) = x :: r4) :
    gopher_item_parse_sel t nm r2 =
      gopher_item_parse_host t nm (r2.takeWhile (fun c => !(c == '\t'))) r4 := by
  rw [gopher_item_parse_sel, h]

theorem gopher_item_parse_host_more {t x : Char} {nm sel r4 r6 : List Char}
    (h : r4.dropWhile (fun c => !(c == '\t')) = x :: r6) :
    gopher_item_parse_host t nm sel r4 =
      ⟨t, toUint16 (atoiModel r6), some nm, some sel,
        some (r4.takeWhile (fun c => !(c == '\t')))⟩ := by
  rw [gopher_item_parse_host, h]

theorem notTab_true {f : List Char} (hf : ∀ c ∈ f, c ≠ '\t') :
    ∀ c ∈ f, (!(c == '\t')) = true := fun c hc => by simp [hf c hc]

theorem notTab_tab_false : (!(('\t' : Char) == '\t')) = false := by simp

/-- Parsing a line made of a type byte, three TAB-free fields separated by
TABs, and a trailing port remainder: each field lands in its slot and the
port is `atoi` of the remainder cast to `uint16_t`. -/
theorem gopher_item_parse_fields (t : Char) (f1 f2 f3 p : List Char)
    (h1 : ∀ c ∈ f1, c ≠ '\t') (h2 : ∀ c ∈ f2, c ≠ '\t') (h3 : ∀ c ∈ f3, c ≠ '\t') :
    gopher_item_parse (t :: (f1 ++ '\t' :: (f2 ++ '\t' :: (f3 ++ '\t' :: p)))) =
      some ⟨t, toUint16 (atoiModel p), some f1, some f2, some f3⟩ := by
  rw [gopher_item_parse_cons
      (dropWhile_append_stop f1 '\t' _ (notTab_true h1) notTab_tab_false),
    takeWhile_append_stop f1 '\t' _ (notTab_true h1) notTab_tab_false,
    gopher_item_parse_sel_more
      (dropWhile_append_stop f2 '\t' _ (notTab_true h2) notTab_tab_false),
    takeWhile_append_stop f2 '\t' _ (notTab_true h2) notTab_tab_false,
    gopher_item_parse_host_more
      (dropWhile_append_stop f3 '\t' _ (notTab_true h3) notTab_tab_false),
    takeWhile_append_stop f3 '\t' _ (notTab_true h3) notTab_tab_false]

theorem takeWhile_false {α : Type} {p : α → Bool} :
    ∀ l : List α, (∀ c ∈ l, p c = false) → l.takeWhile p = []
  | [], _ => rfl
  | c :: rest, h => by
    rw [List.takeWhile_cons, if_neg (by simp [h c (List.mem_cons_self c rest)])]

theorem atoiModel_no_digits {p : List Char} (h : ∀ c ∈ p, isdigitC c = false) :
    atoiModel p = 0 := by
  have hsub : ∀ c ∈ p.dropWhile (fun c => isspaceC c), isdigitC c = false :=
    fun c hc => h c ((List.dropWhile_sublist _).subset hc)
  have htail : ∀ c ∈ (p.dropWhile (fun c => isspaceC c)).tail, isdigitC c = false :=
    fun c hc => hsub c ((List.tail_sublist _).subset hc)
  rw [atoiModel]
  by_cases hm : (p.dropWhile (fun c => isspaceC c)).head? = some '-'
  · rw [if_pos hm, takeWhile_false _ htail, show digitsVal 0 [] = 0 from rfl]
    rfl
  · rw [if_neg hm]
    by_cases hp2 : (p.dropWhile (fun c => isspaceC c)).head? = some '+'
    · rw [if_pos hp2, takeWhile_false _ htail, show digitsVal 0 [] = 0 from rfl]
      rfl
    · rw [if_neg hp2, takeWhile_false _ hsub, show digitsVal 0 [] = 0 from rfl]
      rfl

/-- Claim C6 (evidence of the code bug): parsing the line `"i"` — a type
byte whose first field has no terminating TAB — does not yield the item
with only the type set and an empty name that the specification promises;
the C name-scanning loop never tests for the string terminator and runs
past the end of the buffer, which the model reports as `none`. -/
theorem gopher_item_parse_no_tab_overrun : gopher_item_parse "i".data = none := by
  decide

/-- Claim C4: when sending an item, the wire selector field is
`path_concat` of the client's request selector and the item's selector
exactly when the request selector is nonempty, the item's selector is
non-NULL and the item's selector does not begin with `'/'`; in every other
case the item's own selector is emitted unchanged, NULL emitting the empty
string. -/
theorem send_item_relative_rewrite (csel : List Char) (it : gopher_item) :
    (∀ s, it.selector = some s → csel ≠ [] → s.head? ≠ some '/' →
      client_item_selector csel it = path_concat [csel, s]) ∧
    (it.selector = none → client_item_selector csel it = []) ∧
    (∀ s, it.selector = some s → csel = [] ∨ s.head? = some '/' →
      client_item_selector csel it = s) := by
  refine ⟨?_, ?_, ?_⟩
  · intro s hs hcsel hslash
    rw [client_item_selector, hs]
    show (if csel ≠ [] ∧ s.head? ≠ some '/' then path_concat [csel, s] else s) =
      path_concat [csel, s]
    rw [if_pos ⟨hcsel, hslash⟩]
  · intro h
    rw [client_item_selector, h]
  · intro s hs hor
    rw [client_item_selector, hs]
    show (if csel ≠ [] ∧ s.head? ≠ some '/' then path_concat [csel, s] else s) = s
    rcases hor with h | h
    · rw [if_neg (fun hh => hh.1 h)]
    · rw [if_neg (fun hh => hh.2 h)]

/-- Witness for claim C4 at scenario S5: request selector `docs`, item
selector `intro.txt` — the emitted selector field is the joined
`docs/intro.txt`. -/
theorem send_item_relative_rewrite_witness :
    client_item_selector "docs".data
        ⟨'0', 70, some "Intro".data, some "intro.txt".data, some "localhost".data⟩ =
      path_concat ["docs".data, "intro.txt".data] :=
  (send_item_relative_rewrite "docs".data _).1 "intro.txt".data rfl (by decide) (by decide)

/-- Claim C10 (amended): for every gophermap line made of a type byte and
three TAB-free fields followed by a TAB and a remainder, parsing always
succeeds (a malformed port is never a parse error) and the port is `atoi`
of the remainder reduced modulo 2^16: a remainder with no digit anywhere
gives port 0, and a remainder that is the canonical decimal of `v` gives
`v % 65536`.  (The claim's "fourth field of the line" reading holds only
when the type byte itself is not a TAB; see the counterexample.) -/
theorem port_atoi_amended (t : Char) (f1 f2 f3 p : List Char)
    (h1 : ∀ c ∈ f1, c ≠ '\t') (h2 : ∀ c ∈ f2, c ≠ '\t') (h3 : ∀ c ∈ f3, c ≠ '\t') :
    ∃ it, gopher_item_parse (t :: (f1 ++ '\t' :: (f2 ++ '\t' :: (f3 ++ '\t' :: p)))) =
        some it ∧
      it.port = toUint16 (atoiModel p) ∧
      ((∀ c ∈ p, isdigitC c = false) → it.port = 0) ∧
      (∀ v : Nat, p = decChars v → it.port = v % 65536) := by
  refine ⟨_, gopher_item_parse_fields t f1 f2 f3 p h1 h2 h3, rfl, ?_, ?_⟩
  · intro hnd
    show toUint16 (atoiModel p) = 0
    rw [atoiModel_no_digits hnd]
    rfl
  · intro v hv
    show toUint16 (atoiModel p) = v % 65536
    rw [hv, atoiModel_decChars, toUint16_natCast]

/-- Witness for claim C10's amended theorem at a concrete line. -/
theorem port_atoi_amended_witness :
    ∃ it, gopher_item_parse ('1' :: ("Docs".data ++ '\t' :: ("docs".data ++
        '\t' :: ("example.com".data ++ '\t' :: "8070".data)))) = some it ∧
      it.port = toUint16 (atoiModel "8070".data) ∧
      ((∀ c ∈ "8070".data, isdigitC c = false) → it.port = 0) ∧
      (∀ v : Nat, "8070".data = decChars v → it.port = v % 65536) :=
  port_atoi_amended '1' "Docs".data "docs".data "example.com".data "8070".data
    (by decide) (by decide) (by decide)

/-- Counterexample for claim C10 as stated: the line `"\ta\tb\t5"` has at
least three TABs and its fourth TAB-separated field is the numeric `"5"`,
yet the parser leaves the port at the default 70, because the leading TAB
is consumed as the type byte and every field shifts by one. -/
theorem port_fourth_field_cex :
    (splitOnChar '\t' "\ta\tb\t5".data)[3]? = some "5".data ∧
    (∀ c ∈ "5".data, isdigitC c = true) ∧
    (gopher_item_parse "\ta\tb\t5".data).map gopher_item.port = some 70 ∧
    (70 : Nat) ≠ 5 % 65536 :=
  ⟨by decide, by decide, by decide, by decide⟩

/-- Claim C3 (amended): parsing and then serializing reproduces the line.
For every line made of a non-field-shifting type byte position, three
TAB-free fields and a port field that is the canonical decimal expansion
of some `v < 65536`, and whose length is at most 253 (so that line + CRLF
fits the 255-byte limit), the item sender emits exactly the line followed
by CRLF (the client selector being empty, as when serialization is read
off on its own). -/
theorem parse_serialize_roundtrip (t : Char) (f1 f2 f3 : List Char) (v : Nat)
    (h1 : ∀ c ∈ f1, c ≠ '\t') (h2 : ∀ c ∈ f2, c ≠ '\t') (h3 : ∀ c ∈ f3, c ≠ '\t')
    (hv : v < 65536)
    (hlen : (t :: (f1 ++ '\t' :: (f2 ++ '\t' :: (f3 ++ '\t' :: decChars v)))).length ≤ 253) :
    Option.bind
        (gopher_item_parse (t :: (f1 ++ '\t' :: (f2 ++ '\t' :: (f3 ++ '\t' :: decChars v)))))
        (client_send_item []) =
      some ((t :: (f1 ++ '\t' :: (f2 ++ '\t' :: (f3 ++ '\t' :: decChars v)))) ++
        ['\r', '\n']) := by
  have hport : toUint16 (atoiModel (decChars v)) = v := by
    rw [atoiModel_decChars, toUint16_natCast, Nat.mod_eq_of_lt hv]
  rw [gopher_item_parse_fields t f1 f2 f3 _ h1 h2 h3, hport]
  show client_send_item [] ⟨t, v, some f1, some f2, some f3⟩ =
    some ((t :: (f1 ++ '\t' :: (f2 ++ '\t' :: (f3 ++ '\t' :: decChars v)))) ++ ['\r', '\n'])
  have hsel : client_item_selector [] ⟨t, v, some f1, some f2, some f3⟩ = f2 := by
    rw [client_item_selector]
    show (if ([] : List Char) ≠ [] ∧ f2.head? ≠ some '/'
          then path_concat [[], f2] else f2) = f2
    rw [if_neg (fun hh => hh.1 rfl)]
  have hline : item_wire_line [] ⟨t, v, some f1, some f2, some f3⟩ =
      (t :: (f1 ++ '\t' :: (f2 ++ '\t' :: (f3 ++ '\t' :: decChars v)))) ++ ['\r', '\n'] := by
    rw [item_wire_line, hsel]
    simp [List.append_assoc]
  rw [client_send_item, hline, if_neg ?hlen]
  case hlen =>
    simp only [List.length_append, List.length_cons, List.length_nil, not_le]
    simp only [List.length_append, List.length_cons, List.length_nil] at hlen
    omega

/-- Witness for claim C3's amended round-trip theorem on the line
`"0a\tb\tc\t70"`. -/
theorem parse_serialize_roundtrip_witness :
    Option.bind
        (gopher_item_parse ('0' :: ("a".data ++ '\t' :: ("b".data ++ '\t' ::
          ("c".data ++ '\t' :: decChars 70))))) (client_send_item []) =
      some (('0' :: ("a".data ++ '\t' :: ("b".data ++ '\t' ::
        ("c".data ++ '\t' :: decChars 70)))) ++ ['\r', '\n']) :=
  parse_serialize_roundtrip '0' "a".data "b".data "c".data 70
    (by decide) (by decide) (by decide) (by decide) (by decide)

/-- Counterexample for claim C3 as stated: `"0a\tb\tc\t070"` has exactly
three TABs and a numeric port field, but the port field is re-emitted in
canonical form, so serializing the parse yields `"0a\tb\tc\t70"` + CRLF,
not the original line. -/
theorem roundtrip_leading_zero_cex :
    (splitOnChar '\t' "0a\tb\tc\t070".data).length = 4 ∧
    (∀ c ∈ "070".data, isdigitC c = true) ∧
    Option.bind (gopher_item_parse "0a\tb\tc\t070".data) (client_send_item []) =
      some "0a\tb\tc\t70\r\n".data ∧
    "0a\tb\tc\t70\r\n".data ≠ "0a\tb\tc\t070".data ++ ['\r', '\n'] :=
  ⟨by decide, by decide, by decide, by decide⟩

theorem cleanField_append {a b : List Char} (ha : cleanField a) (hb : cleanField b) :
    cleanField (a ++ b) := by
  intro c hc
  rcases List.mem_append.mp hc with h | h
  · exact ha c h
  · exact hb c h

theorem cleanField_client_item_selector (csel : List Char) (it : gopher_item)
    (hcsel : cleanField csel) (hsel : ∀ s, it.selector = some s → cleanField s) :
    cleanField (client_item_selector csel it) := by
  rcases hs : it.selector with _ | s
  · rw [client_item_selector, hs]
    intro c hc
    simp at hc
  · rw [client_item_selector, hs]
    show cleanField (if csel ≠ [] ∧ s.head? ≠ some '/' then path_concat [csel, s] else s)
    by_cases hc : csel ≠ [] ∧ s.head? ≠ some '/'
    · rw [if_pos hc]
      have hpc : path_concat [csel, s] = pcStep csel s := by
        rw [path_concat, List.foldl_cons, pcStep_nil_left, List.foldl_cons, List.foldl_nil]
      rw [hpc, pcStep_eq]
      refine cleanField_append (cleanField_append hcsel ?_) (hsel s hs)
      by_cases hsep : csel ≠ [] ∧ csel.getLast? ≠ some PATH_SEPARATOR
      · rw [if_pos hsep]; decide
      · rw [if_neg hsep]; intro c hcm; simp at hcm
    · rw [if_neg hc]
      exact hsel s hs

/-- Claim C2: wire framing.  Whenever the fields of an item (and the
client's request selector) are free of TAB/CR/LF, any record the item
sender actually emits matches the menu-record shape — type byte, three
clean TAB-separated fields, a nonempty decimal port and CRLF — and is at
most 255 bytes long; and a record whose formatted length reaches 256 bytes
is not sent at all (the operation fails instead of truncating). -/
theorem send_item_wire_framing (csel : List Char) (it : gopher_item)
    (hcsel : cleanField csel)
    (hname : ∀ nm, it.name = some nm → cleanField nm)
    (hsel : ∀ s, it.selector = some s → cleanField s)
    (hhost : ∀ h, it.hostname = some h → cleanField h) :
    (∀ r, client_send_item csel it = some r → wire_record_shape r ∧ r.length ≤ 255) ∧
    (256 ≤ (item_wire_line csel it).length → client_send_item csel it = none) := by
  constructor
  · intro r hr
    rw [client_send_item] at hr
    by_cases hlen : 256 ≤ (item_wire_line csel it).length
    · rw [if_pos hlen] at hr
      exact absurd hr (by simp)
    · rw [if_neg hlen] at hr
      have hr' : item_wire_line csel it = r := by injection hr
      constructor
      · rw [← hr', item_wire_line]
        refine ⟨it.type, it.name.getD [], client_item_selector csel it,
          it.hostname.getD DEFAULT_HOSTNAME, decChars it.port, rfl, ?_, ?_, ?_, ?_, ?_⟩
        · rcases hn : it.name with _ | nm
          · intro c hcm; simp at hcm
          · exact hname nm hn
        · exact cleanField_client_item_selector csel it hcsel hsel
        · rcases hh : it.hostname with _ | h
          · decide
          · exact hhost h hh
        · exact decChars_ne_nil it.port
        · intro c hcm
          have := decChars_digits it.port c hcm
          simp only [isdigitC, Bool.and_eq_true, decide_eq_true_eq]
          omega
      · rw [← hr']
        omega
  · intro hlen
    rw [client_send_item, if_pos hlen]

/-- Witness for claim C2 at a concrete clean item. -/
theorem send_item_wire_framing_witness :
    (∀ r, client_send_item "docs".data
        ⟨'0', 70, some "Intro".data, some "intro.txt".data, some "localhost".data⟩ =
          some r → wire_record_shape r ∧ r.length ≤ 255) ∧
    (256 ≤ (item_wire_line "docs".data
        ⟨'0', 70, some "Intro".data, some "intro.txt".data, some "localhost".data⟩).length →
      client_send_item "docs".data
        ⟨'0', 70, some "Intro".data, some "intro.txt".data, some "localhost".data⟩ = none) :=
  send_item_wire_framing "docs".data
    ⟨'0', 70, some "Intro".data, some "intro.txt".data, some "localhost".data⟩
    (by decide)
    (fun nm h => (Option.some.inj h) ▸ (by decide : cleanField "Intro".data))
    (fun s h => (Option.some.inj h) ▸ (by decide : cleanField "intro.txt".data))
    (fun h hh => (Option.some.inj hh) ▸ (by decide : cleanField "localhost".data))

theorem dirent_hidden_false {n : List Char} (h : dirent_hidden n = false) :
    n.head? ≠ some '.' ∧ n ≠ "gophermap".data := by
  constructor
  · intro hh
    cases n with
    | nil => simp at hh
    | cons c n' =>
      simp only [List.head?_cons, Option.some.injEq] at hh
      subst hh
      rw [dirent_hidden] at h
      simp at h
  · intro hh
    subst hh
    exact absurd h (by decide)

theorem dirent_hidden_eq_false {n : List Char} (h1 : n.head? ≠ some '.')
    (h2 : n ≠ "gophermap".data) : dirent_hidden n = false := by
  cases n with
  | nil => rfl
  | cons c n' =>
    show (if c = '.' then true
          else if c = 'g' then decide (c :: n' = "gophermap".data) else false) = false
    have hc : ¬c = '.' := fun hc => h1 (by simp [hc])
    rw [if_neg hc]
    by_cases hg : c = 'g'
    · rw [if_pos hg]
      simp [h2]
    · rw [if_neg hg]

/-- Claim C7 (amended): in every auto directory listing, no constructed
item's selector (the entry's name) begins with `'.'` or equals
`"gophermap"`; every entry whose name neither begins with `'.'` nor equals
`"gophermap"` — names beginning with `'g'` included — is listed; and on
the wire the emitted selector field can begin with `'.'` only when the
client's own request selector begins with `'.'`, because the relative
rewrite prefixes the request selector. -/
theorem dir_listing_hidden_amended (csel : List Char) (entries : List dirent_entry)
    (header : Bool) :
    (∀ it ∈ client_send_dir_items entries, ∀ s, it.selector = some s →
      s.head? ≠ some '.' ∧ s ≠ "gophermap".data) ∧
    (∀ e ∈ entries, e.d_name.head? ≠ some '.' → e.d_name ≠ "gophermap".data →
      some e.d_name ∈ (client_send_dir_items entries).map gopher_item.selector) ∧
    (csel.head? ≠ some '.' → ∀ it ∈ client_send_dir_model csel entries header,
      (client_item_selector csel it).head? ≠ some '.') := by
  refine ⟨?_, ?_, ?_⟩
  · intro it hit s hs
    obtain ⟨e, he, hde⟩ := List.mem_map.mp hit
    have hf : dirent_hidden e.d_name = false := by
      have := (List.mem_filter.mp he).2
      simpa using this
    have hsel : s = e.d_name := by
      rw [← hde] at hs
      exact (Option.some.inj hs).symm
    rw [hsel]
    exact dirent_hidden_false hf
  · intro e he h1 h2
    refine List.mem_map.mpr ⟨dir_item e, List.mem_map.mpr ⟨e, ?_, rfl⟩, rfl⟩
    refine List.mem_filter.mpr ⟨he, ?_⟩
    simp [dirent_hidden_eq_false h1 h2]
  · intro hcsel it hit
    rcases List.mem_append.mp hit with hm | hm
    · -- header items carry a NULL selector: the emitted field is empty
      by_cases hh : header
      · rw [if_pos hh] at hm
        simp only [dir_header_items, List.mem_cons, List.mem_singleton,
          List.not_mem_nil, or_false] at hm
        rcases hm with rfl | rfl
        · intro hx; simp [client_item_selector] at hx
        · intro hx; simp [client_item_selector] at hx
      · rw [if_neg hh] at hm
        cases hm
    · obtain ⟨e, he, hde⟩ := List.mem_map.mp hm
      have hf : dirent_hidden e.d_name = false := by
        have := (List.mem_filter.mp he).2
        simpa using this
      have hdot : e.d_name.head? ≠ some '.' := (dirent_hidden_false hf).1
      rw [← hde]
      show (client_item_selector csel (dir_item e)).head? ≠ some '.'
      rw [client_item_selector]
      show (if csel ≠ [] ∧ e.d_name.head? ≠ some '/'
            then path_concat [csel, e.d_name] else e.d_name).head? ≠ some '.'
      by_cases hc : csel ≠ [] ∧ e.d_name.head? ≠ some '/'
      · rw [if_pos hc]
        have hpc : path_concat [csel, e.d_name] = pcStep csel e.d_name := by
          rw [path_concat, List.foldl_cons, pcStep_nil_left, List.foldl_cons,
            List.foldl_nil]
        obtain ⟨c0, csel', hc0⟩ : ∃ c0 csel', csel = c0 :: csel' := by
          rcases csel with _ | ⟨c0, csel'⟩
          · exact absurd rfl hc.1
          · exact ⟨c0, csel', rfl⟩
        rw [hpc, pcStep_eq, hc0]
        simp only [List.cons_append, List.head?_cons]
        rw [hc0] at hcsel
        simpa using hcsel
      · rw [if_neg hc]
        exact hdot

/-- Witness for claim C7's amended theorem: in a listing containing a
normal file, a dotfile, a `g`-named file and a `gophermap`, the `g`-named
entry is listed. -/
theorem dir_listing_hidden_amended_witness :
    some "gtest".data ∈
      (client_send_dir_items [⟨"a.txt".data, false⟩, ⟨".hid".data, false⟩,
        ⟨"gtest".data, true⟩, ⟨"gophermap".data, false⟩]).map gopher_item.selector :=
  (dir_listing_hidden_amended "sub".data _ true).2.1 ⟨"gtest".data, true⟩
    (by decide) (by decide) (by decide)

/-- Counterexample for claim C7 as stated: when the client requests the
selector `".d"` (which sanitization passes through), the auto listing of
that directory emits a record whose wire selector field is `".d/a.txt"` —
it begins with `'.'`. -/
theorem dir_listing_dot_selector_cex :
    (client_send_dir_model ".d".data [⟨"a.txt".data, false⟩] false).map
        (client_item_selector ".d".data) = [".d/a.txt".data] ∧
    (".d/a.txt".data).head? = some '.' :=
  ⟨by decide, by decide⟩

/-- Claim C8: a gophermap line that strips to exactly `"."` stops
processing — the rendered output is the same whatever lines follow it, so
no entry, info line or directive of a later line is ever emitted. -/
theorem gophermap_dot_terminates (pre : List (List Char)) (l : List Char)
    (hl : stripCRLF l = ['.']) (post : List (List Char)) :
    gophermap_render (pre ++ l :: post) = gophermap_render (pre ++ [l]) := by
  have h0 : (stripCRLF l).count '\t' = 0 := by rw [hl]; decide
  induction pre with
  | nil =>
    rw [List.nil_append, List.nil_append]
    rw [gophermap_render, if_pos h0, if_pos hl]
    rw [gophermap_render, if_pos h0, if_pos hl]
  | cons q pre' ih =>
    rw [List.cons_append, List.cons_append]
    rw [gophermap_render, gophermap_render]
    by_cases hq0 : (stripCRLF q).count '\t' = 0
    · by_cases hdot : stripCRLF q = ['.']
      · rw [if_pos hq0, if_pos hdot, if_pos hq0, if_pos hdot]
      · by_cases hstar : stripCRLF q = ['*']
        · rw [if_pos hq0, if_neg hdot, if_pos hstar, if_pos hq0, if_neg hdot,
            if_pos hstar, ih]
        · rw [if_pos hq0, if_neg hdot, if_neg hstar, if_pos hq0, if_neg hdot,
            if_neg hstar, ih]
    · rw [if_neg hq0, if_neg hq0, ih]

/-- Witness for claim C8 on a concrete gophermap. -/
theorem gophermap_dot_terminates_witness :
    gophermap_render (["iHello".data] ++ ".\r".data :: ["iNever".data]) =
      gophermap_render (["iHello".data] ++ [".\r".data]) :=
  gophermap_dot_terminates ["iHello".data] ".\r".data (by decide) ["iNever".data]

end Amigos


